import Mathlib

/-!
Verification of the helper functions and example programs of the
`markov-decision-programs` repository (two Jupyter notebooks wrapping the
ProbLog probabilistic-logic-programming library).

The authored Python code is embedded shallowly:

* `Stmt` is the engine's internal statement type (probabilistic facts,
  rules, query and evidence declarations) — the authored helpers never
  inspect statements, they only pass them around.
* `EngineState` is a heap of `ClauseDB` handles (`engine.prepare`,
  `db.extend()` and `db += statement` allocate into / mutate this heap),
  so that frame claims about handles are expressible.
* `EngineModel` abstracts the external library's operations
  (`PrologString` parsing, `engine.ground_all`, and
  `get_evaluatable().create_from(..).evaluate()`); the helpers are
  written against an arbitrary model, and `specEngine` instantiates it
  with a semantics modelled from the specification (possible worlds /
  weighted model counting).
* Every helper also returns the list of external library calls it made
  (`Trace`), so that claims about being a "pass-through to a single
  external API call" are expressible.
-/

namespace MDProg

/-- A body literal of a rule: polarity (`pos = true` for a positive
literal, `false` for `not(...)`) and the atom's name. -/
structure Lit where
  pos : Bool
  atom : String
deriving DecidableEq, Repr

/-- The engine's internal statement type: probabilistic facts `p::a.`,
rules `h :- l1, ..., lk.`, and `query(a).` / `evidence(a, v).`
declarations. -/
inductive Stmt where
  | fact (atom : String) (p : ℚ)
  | rule (head : String) (body : List Lit)
  | queryDecl (atom : String)
  | evidenceDecl (atom : String) (val : Bool)
deriving DecidableEq, Repr

/-- Errors raised by the external engine (parse errors, invalid
probability annotations, unsatisfiable evidence, unsupported syntax). -/
inductive Err where
  | parseErr (msg : String)
  | invalidProbability
  | inconsistentEvidence
  | unsupported (msg : String)
deriving DecidableEq, Repr

deriving instance DecidableEq for Except

/-- The mapping from queried atoms to probabilities returned by
`evaluate`. -/
abbrev ProbMap := List (String × ℚ)

/-- One `ClauseDB` record in the engine's heap. -/
structure DBRec where
  stmts : List Stmt
deriving DecidableEq, Repr

/-- A database handle, an index into the heap. -/
abbrev Handle := Nat

/-- The heap of `ClauseDB` objects allocated so far. -/
structure EngineState where
  dbs : List DBRec
deriving DecidableEq, Repr

/-- External library calls made by the helpers: `PrologString`
construction/parsing, `engine.prepare`, `db.extend()`,
`db += statement`, `engine.ground_all`, and the
`create_from` / `.evaluate()` pair. -/
inductive APICall where
  | prologString
  | prepare
  | dbExtend
  | addStatement
  | groundAll
  | createFrom
  | evalCall
deriving DecidableEq, Repr

/-- The sequence of external library calls a helper made. -/
abbrev Trace := List APICall

/-- Allocate a fresh `ClauseDB` in the heap, returning the new state and
the fresh handle. -/
def allocDB (st : EngineState) (d : DBRec) : EngineState × Handle :=
  (⟨st.dbs ++ [d]⟩, st.dbs.length)

/-- The statements currently stored under a handle. -/
def contents (st : EngineState) (h : Handle) : List Stmt :=
  ((st.dbs.getD h ⟨[]⟩)).stmts

/-- `db += statement`: append one statement to the database under
handle `h`. -/
def addStmt (st : EngineState) (h : Handle) (s : Stmt) : EngineState :=
  ⟨st.dbs.set h ⟨contents st h ++ [s]⟩⟩

/-- The external library's operations, abstracted: `parseStmts` is
`PrologString` parsing, `groundAllOp` is `engine.ground_all`, and
`evalDB` is `get_evaluatable().create_from(..).evaluate()`. -/
structure EngineModel where
  parseStmts : String → Except Err (List Stmt)
  groundAllOp : List Stmt → List String → List (String × Bool) → Except Err (List Stmt)
  evalDB : List Stmt → Except Err ProbMap

/-- The first positional argument of the notebook's `query` helper: a
program string or an already-prepared database handle. -/
inductive Model where
  | str (s : String)
  | db (h : Handle)
deriving DecidableEq, Repr

/-- What the `evaluate` helper is applied to: either a database handle
(as in `run`) or the ground logic formula returned by
`engine.ground_all` (as in `query`). -/
inductive EvalArg where
  | db (h : Handle)
  | lf (stmts : List Stmt)
deriving DecidableEq, Repr

/-- The statements the engine sees when `create_from` receives `x`. -/
def evalInput (st : EngineState) (x : EvalArg) : List Stmt :=
  match x with
  | .db h => contents st h
  | .lf l => l

/-- Embedding of the notebook helper

    def precompile(model_str):
        db = engine.prepare(PrologString(model_str))
        return db
-/
def precompile (E : EngineModel) (st : EngineState) (model_str : String) :
    Except Err (EngineState × Handle × Trace) := do
  let stmts ← E.parseStmts model_str
  let (st1, h) := allocDB st ⟨stmts⟩
  pure (st1, h, [.prologString, .prepare])

/-- Embedding of the notebook helper

    def extend(db, model_str):
        db2 = db.extend()
        for statement in PrologString(model_str):
            db2 += statement
        return db2
-/
def extend (E : EngineModel) (st : EngineState) (db : Handle) (model_str : String) :
    Except Err (EngineState × Handle × Trace) := do
  let (st1, h2) := allocDB st ⟨contents st db⟩
  let stmts ← E.parseStmts model_str
  let st2 := stmts.foldl (fun acc s => addStmt acc h2 s) st1
  pure (st2, h2, [.dbExtend, .prologString] ++ stmts.map (fun _ => .addStatement))

/-- Embedding of the notebook helper

    def evaluate(db):
        return get_evaluatable().create_from(db).evaluate()
-/
def evaluate (E : EngineModel) (st : EngineState) (x : EvalArg) :
    Except Err (ProbMap × Trace) := do
  let m ← E.evalDB (evalInput st x)
  pure (m, [.createFrom, .evalCall])

/-- Embedding of the notebook helper

    def query(model, queries, evidence=None):
        if isinstance(model, str):
            db = precompile(model)
        else:
            db = model
        if evidence is None:
            evidence = []
        lf = engine.ground_all(db, queries=queries, evidence=evidence)
        return evaluate(lf)

The Python default argument `evidence=None` is modelled by calling
`query` with `none` for `evidence`. -/
def query (E : EngineModel) (st : EngineState) (model : Model)
    (queries : List String) (evidence : Option (List (String × Bool))) :
    Except Err (ProbMap × Trace) := do
  let (st1, db, tr1) ← match model with
    | .str s => precompile E st s
    | .db h => pure (st, h, ([] : Trace))
  let ev := evidence.getD []
  let lf ← E.groundAllOp (contents st1 db) queries ev
  let (m, tr2) ← evaluate E st1 (.lf lf)
  pure (m, tr1 ++ [.groundAll] ++ tr2)

/-- Embedding of the MDP notebook's helper

    def run(model_str):
        db = precompile(model_str)
        return evaluate(db)
-/
def runMDP (E : EngineModel) (st : EngineState) (model_str : String) :
    Except Err (ProbMap × Trace) := do
  let (st1, h, tr1) ← precompile E st model_str
  let (m, tr2) ← evaluate E st1 (.db h)
  pure (m, tr1 ++ tr2)

/-- Embedding of the introduction notebook's helper

    def run(model_str):
        model = PrologString(model_str)
        print(get_evaluatable().create_from(model).evaluate())

The printed value is modelled as the returned value. -/
def runIntro (E : EngineModel) (model_str : String) :
    Except Err (ProbMap × Trace) := do
  let stmts ← E.parseStmts model_str
  let m ← E.evalDB stmts
  pure (m, [.prologString, .createFrom, .evalCall])

/-- The probabilistic facts of a program, in source order. -/
def pfactsOf (l : List Stmt) : List (String × ℚ) :=
  l.filterMap fun s => match s with
    | .fact a p => some (a, p)
    | _ => none

/-- The rules of a program, in source order. -/
def rulesOf (l : List Stmt) : List (String × List Lit) :=
  l.filterMap fun s => match s with
    | .rule h b => some (h, b)
    | _ => none

/-- The atoms declared as queries, in source order. -/
def queryAtomsOf (l : List Stmt) : List String :=
  l.filterMap fun s => match s with
    | .queryDecl a => some a
    | _ => none

/-- The declared evidence constraints, in source order. -/
def evidenceOf (l : List Stmt) : List (String × Bool) :=
  l.filterMap fun s => match s with
    | .evidenceDecl a v => some (a, v)
    | _ => none

/-- Modelled from the spec: "Possible world: a complete truth assignment
to all probabilistic facts".  All complete truth assignments to `n`
facts, as lists of booleans aligned with the facts' source order. -/
def worlds : ℕ → List (List Bool)
  | 0 => [[]]
  | n + 1 => (worlds n).map (true :: ·) ++ (worlds n).map (false :: ·)

/-- Modelled from the spec: a world's probability is "the product of
chosen facts' success/failure probabilities". -/
def worldProb (fs : List (String × ℚ)) (w : List Bool) : ℚ :=
  ((fs.zip w).map fun fv => if fv.2 then fv.1.2 else 1 - fv.1.2).prod

/-- The truth value a world assigns to a probabilistic fact (`none` if
the atom is not a fact). -/
def factVal (fs : List (String × ℚ)) (w : List Bool) (a : String) : Option Bool :=
  ((fs.map Prod.fst).zip w).lookup a

/-- Modelled from the spec: "Negation as failure: a literal `not(p)`
holds when `p` cannot be derived".  Truth of a body literal over the
program's probabilistic facts in a given world. -/
def litHolds (fs : List (String × ℚ)) (w : List Bool) (l : Lit) : Bool :=
  match factVal fs w l.atom with
  | some b => b == l.pos
  | none => false

/-- Truth of an atom in a world: either it is a probabilistic fact that
the world makes true, or it is the head of a rule whose body holds. -/
def atomHolds (prog : List Stmt) (fs : List (String × ℚ)) (w : List Bool)
    (a : String) : Bool :=
  (factVal fs w a).getD false
    || (rulesOf prog).any fun r => r.1 == a && r.2.all (litHolds fs w)

/-- Whether a world satisfies all the declared evidence constraints. -/
def evidHolds (prog : List Stmt) (fs : List (String × ℚ)) (w : List Bool) : Bool :=
  (evidenceOf prog).all fun ev => atomHolds prog fs w ev.1 == ev.2

/-- Sum of a rational-valued function over a list of worlds. -/
def sumOver (ws : List (List Bool)) (f : List Bool → ℚ) : ℚ :=
  (ws.map f).sum

/-- Modelled from the spec: the external engine's evaluation
("weighted model counting: ... computes marginal probabilities of
queried atoms by summing possible-world probabilities consistent with
the query and evidence", conditioning on the evidence).  This operation
lives in the external ProbLog library, not in the repository; it is
reconstructed here from the specification's words.  It fails on
probability annotations outside `[0,1]` and on unsatisfiable
evidence. -/
def evalProgram (prog : List Stmt) : Except Err ProbMap :=
  let fs := pfactsOf prog
  if fs.all fun f => decide (0 ≤ f.2) && decide (f.2 ≤ 1) then
    let ws := worlds fs.length
    let z := sumOver ws fun w => if evidHolds prog fs w then worldProb fs w else 0
    if z = 0 then .error .inconsistentEvidence
    else .ok ((queryAtomsOf prog).map fun a =>
      (a, (sumOver ws fun w =>
            if atomHolds prog fs w a && evidHolds prog fs w then worldProb fs w else 0) / z))
  else .error .invalidProbability

/-- Split a character list at every occurrence of `c` (the pieces do not
contain `c`). -/
def splitOnChar (c : Char) (l : List Char) : List (List Char) :=
  l.foldr (fun x acc => match acc with
    | [] => [[x]]
    | a :: as => if x = c then [] :: a :: as else (x :: a) :: as) [[]]

/-- Remove leading and trailing spaces. -/
def trimChars (l : List Char) : List Char :=
  ((l.dropWhile (· = ' ')).reverse.dropWhile (· = ' ')).reverse

/-- Whether `pat` occurs at the start of the second list. -/
def leadsWith : List Char → List Char → Bool
  | [], _ => true
  | _ :: _, [] => false
  | p :: ps, x :: xs => p == x && leadsWith ps xs

/-- Split a character list at the first occurrence of `pat`, removing
the occurrence; `none` when `pat` does not occur. -/
def splitFirst (pat : List Char) : List Char → Option (List Char × List Char)
  | [] => none
  | x :: xs =>
    if leadsWith pat (x :: xs) then some ([], (x :: xs).drop pat.length)
    else (splitFirst pat xs).map fun ab => (x :: ab.1, ab.2)

/-- The value of a decimal digit. -/
def digitVal (c : Char) : Option ℕ :=
  if c.isDigit then some (c.toNat - 48) else none

/-- Parse a nonempty digit string as a natural number. -/
def parseDigits (l : List Char) : Option ℕ :=
  match l with
  | [] => none
  | _ => l.foldlM (fun acc c => (digitVal c).map fun d => acc * 10 + d) 0

/-- Parse a decimal probability annotation such as `0.65`. -/
def parseRat (l : List Char) : Option ℚ :=
  match splitOnChar '.' l with
  | [i] => (parseDigits i).map fun n => (n : ℚ)
  | [i, f] => do
    let ni ← parseDigits i
    let nf ← parseDigits f
    pure ((ni : ℚ) + (nf : ℚ) / ((10 : ℚ) ^ f.length))
  | _ => none

/-- Parse a body literal, `not(a)` or `a`. -/
def parseLit (l : List Char) : Lit :=
  let t := trimChars l
  if leadsWith "not(".data t && t.getLast? = some ')' then
    ⟨false, String.mk (trimChars (t.drop 4).dropLast)⟩
  else ⟨true, String.mk t⟩

/-- Parse one statement (its trailing period already removed). -/
def parseStmtLine (l : List Char) : Except Err Stmt :=
  let t := trimChars l
  if leadsWith "query(".data t then
    if t.getLast? = some ')' then
      .ok (.queryDecl (String.mk (trimChars ((t.drop 6).dropLast))))
    else .error (.parseErr (String.mk t))
  else if leadsWith "evidence(".data t then
    if t.getLast? = some ')' then
      let inner := trimChars ((t.drop 9).dropLast)
      match splitFirst ",".data inner with
      | some av =>
        let vs := trimChars av.2
        if vs = "true".data then .ok (.evidenceDecl (String.mk (trimChars av.1)) true)
        else if vs = "false".data then .ok (.evidenceDecl (String.mk (trimChars av.1)) false)
        else .error (.parseErr (String.mk t))
      | none => .ok (.evidenceDecl (String.mk inner) true)
    else .error (.parseErr (String.mk t))
  else
    match splitFirst ":-".data t with
    | some hb =>
      let hdt := trimChars hb.1
      if (splitFirst "::".data hdt).isSome then .error (.unsupported (String.mk t))
      else .ok (.rule (String.mk hdt) ((splitOnChar ',' hb.2).map parseLit))
    | none =>
      match splitFirst "::".data t with
      | some pa =>
        match parseRat (trimChars pa.1) with
        | some q => .ok (.fact (String.mk (trimChars pa.2)) q)
        | none => .error (.parseErr (String.mk t))
      | none => .ok (.rule (String.mk t) [])

/-- Parse the period-terminated statements on a list of lines, skipping
blank lines. -/
def parseProbLogLines : List (List Char) → Except Err (List Stmt)
  | [] => .ok []
  | l :: rest =>
    let t := trimChars l
    if t = [] then parseProbLogLines rest
    else if t.getLast? = some '.' then do
      let s ← parseStmtLine t.dropLast
      let others ← parseProbLogLines rest
      pure (s :: others)
    else .error (.parseErr (String.mk t))

/-- Modelled from the spec: "A constructor that parses a logic-program
source string into an internal program representation" — the external
library's `PrologString` parser, reconstructed for the sublanguage the
notebooks use (probabilistic facts, rules with negation-as-failure
literals, query and evidence declarations). -/
def parseProbLog (s : String) : Except Err (List Stmt) :=
  parseProbLogLines (splitOnChar '\n' s.data)

/-- Drop the query and evidence declarations of a program (they are
replaced by the arguments of `engine.ground_all`). -/
def stripDecls (l : List Stmt) : List Stmt :=
  l.filter fun s => match s with
    | .queryDecl _ => false
    | .evidenceDecl _ _ => false
    | _ => true

/-- The external engine instantiated with the spec-modelled parser,
grounder, and weighted-model-counting evaluation. -/
def specEngine : EngineModel where
  parseStmts := parseProbLog
  groundAllOp := fun stmts qs ev =>
    .ok (stripDecls stmts ++ qs.map .queryDecl ++ ev.map fun e => .evidenceDecl e.1 e.2)
  evalDB := evalProgram

/-- The literal text of model `m1` of the introduction notebook. -/
def m1src : String :=
  "\n0.65::a.\n0.10::b.\nquery(a).\nquery(b).\n"

/-- The literal text of model `m4` of the introduction notebook. -/
def m4src : String :=
  "\n0.65::a.\n0.10::b.\nw1 :- a, b.\nw2 :- a, not(b).\nw3 :- not(a), b.\nw4 :- not(a), not(b).\nquery(w1).\nquery(w2).\nquery(w3).\nquery(w4).\n"

/-- One step of `count[atom] += int(value)`: add the sample's truth
value to the entry of `atom`; `none` models the `KeyError` raised when
`atom` is not a key of the count dictionary. -/
def updateCount (c : List (String × ℕ)) (a : String) (v : Bool) :
    Option (List (String × ℕ)) :=
  match c with
  | [] => none
  | x :: rest =>
    if x.1 = a then some ((x.1, x.2 + (if v then 1 else 0)) :: rest)
    else (updateCount rest a v).map (x :: ·)

/-- The inner loop `for atom, value in model_sample.items(): ...` of the
sampling cell. -/
def processSample (c : List (String × ℕ)) (s : List (String × Bool)) :
    Option (List (String × ℕ)) :=
  s.foldlM (fun acc av => updateCount acc av.1 av.2) c

/-- Embedding of the Monte Carlo estimation code of the sampling cell:

    count = { atom: 0 for atom in result[0].keys() }
    for model_sample in result:
        for atom, value in model_sample.items():
            count[atom] += int(value)
    estimates = { atom: positive / len(result) for atom, positive in count.items() }

Dictionaries are association lists; `none` models a raised `KeyError`
(or the `IndexError` of `result[0]` on an empty result). -/
def estimatesOf (result : List (List (String × Bool))) :
    Option (List (String × ℚ)) :=
  match result with
  | [] => none
  | r0 :: _ =>
    (result.foldlM processSample (r0.map fun av => (av.1, (0 : ℕ)))).map
      fun cnt => cnt.map fun an => (an.1, (an.2 : ℚ) / result.length)

/-- The contribution of one sample to the count of atom `a`:
`int(value)` when `a` is a key of the sample, else nothing. -/
def sampleIncr (s : List (String × Bool)) (a : String) : ℕ :=
  match s.lookup a with
  | some true => 1
  | _ => 0

/-- Modelled from the spec: "A sampling operation that draws a requested
number of independent complete-world samples and yields, per sample, a
mapping from atom to boolean truth value."  The sampler itself lives in
the external library (`problog.tasks.sample`), not in this repository;
it is modelled as a deterministic function of an explicit randomness
source.  The program's probabilistic facts are given as integer
thresholds out of a common denominator `d` (the fact with threshold `t`
has probability `t / d`), and one sample consumes one integer below `d`
per fact: the fact is true when its integer falls below its
threshold. -/
def sampleWorld (fs : List (String × ℕ)) (seed : List ℕ) :
    List (String × Bool) :=
  (fs.zip seed).map fun fv => (fv.1.1, decide (fv.2 < fv.1.2))

/-- Drawing one complete-world sample per seed row. -/
def sampleMany (fs : List (String × ℕ)) (seeds : List (List ℕ)) :
    List (List (String × Bool)) :=
  seeds.map (sampleWorld fs)

/-- Every tuple of `k` integers below `d` (the randomness consumed by
one sample). -/
def allTuples (d : ℕ) : ℕ → List (List ℕ)
  | 0 => [[]]
  | k + 1 => (List.range d).flatMap fun v => (allTuples d k).map (v :: ·)

/-- Every sequence of `n` sample tuples (the randomness consumed by a
whole run of the sampler). -/
def allSeeds (d k : ℕ) : ℕ → List (List (List ℕ))
  | 0 => [[]]
  | n + 1 => (allTuples d k).flatMap fun t => (allSeeds d k n).map (t :: ·)

/-- The possible-world probability of outcome `w` under fact thresholds
`t_j` out of `d`: the product of `t_j / d` for true facts and
`(d - t_j) / d` for false ones. -/
def worldWeight (fs : List (String × ℕ)) (d : ℕ) (w : List Bool) : ℚ :=
  ((fs.zip w).map fun fw =>
    if fw.2 then (fw.1.2 : ℚ) / d else ((d : ℚ) - fw.1.2) / d).prod

/-- The numerator of a world's probability under thresholds out of `d`:
the product of `t_j` over true facts and `d - t_j` over false ones. -/
def worldNumer (fs : List (String × ℕ)) (d : ℕ) (w : List Bool) : ℕ :=
  ((fs.zip w).map fun fw => if fw.2 then fw.1.2 else d - fw.1.2).prod

theorem optionBindSome {α β : Type} (a : α) (f : α → Option β) :
    (some a : Option α) >>= f = f a := rfl

theorem optionMapSome {α β : Type} (f : α → β) (a : α) :
    Option.map f (some a) = some (f a) := rfl

theorem exceptPureOk {ε α : Type} (a : α) :
    (pure a : Except ε α) = Except.ok a := rfl

theorem exceptBindOk {ε α β : Type} (a : α) (f : α → Except ε β) :
    (Except.ok a : Except ε α) >>= f = f a := rfl

theorem exceptMethodBindOk {ε α β : Type} (a : α) (f : α → Except ε β) :
    (Except.ok a : Except ε α).bind f = f a := rfl

theorem exceptBindError {ε α β : Type} (e : ε) (f : α → Except ε β) :
    (Except.error e : Except ε α) >>= f = Except.error e := rfl

theorem contents_addStmt_self (st : EngineState) (h : Handle) (s : Stmt)
    (hh : h < st.dbs.length) :
    contents (addStmt st h s) h = contents st h ++ [s] := by
  simp [contents, addStmt, List.getD, List.getElem?_set_self hh]

theorem dbs_addStmt_other (st : EngineState) (h h' : Handle) (s : Stmt)
    (hne : h' ≠ h) : (addStmt st h s).dbs[h']? = st.dbs[h']? := by
  simp [addStmt, List.getElem?_set_ne (fun he => hne he.symm)]

theorem length_addStmt (st : EngineState) (h : Handle) (s : Stmt) :
    (addStmt st h s).dbs.length = st.dbs.length := by
  simp [addStmt]

theorem foldl_addStmt (l : List Stmt) (st : EngineState) (h : Handle)
    (hh : h < st.dbs.length) :
    contents (l.foldl (fun acc s => addStmt acc h s) st) h = contents st h ++ l ∧
    (l.foldl (fun acc s => addStmt acc h s) st).dbs.length = st.dbs.length ∧
    ∀ h', h' ≠ h →
      (l.foldl (fun acc s => addStmt acc h s) st).dbs[h']? = st.dbs[h']? := by
  induction l generalizing st with
  | nil => simp
  | cons x xs ih =>
    have hh1 : h < (addStmt st h x).dbs.length := by
      rw [length_addStmt]; exact hh
    have := ih (addStmt st h x) hh1
    refine ⟨?_, ?_, ?_⟩
    · simp only [List.foldl_cons, this.1, contents_addStmt_self st h x hh,
        List.append_assoc, List.singleton_append]
    · simp only [List.foldl_cons, this.2.1, length_addStmt]
    · intro h' hne
      simp only [List.foldl_cons, this.2.2 h' hne, dbs_addStmt_other st h h' x hne]

/-- Claim C2 — the `extend` helper allocates a fresh handle: the result
handle differs from the input handle, the new database holds the input's
statements followed by the statements parsed from `model_str`, and the
record stored under the input handle is unchanged. -/
theorem extend_fresh_layered_frame (E : EngineModel) (st : EngineState)
    (db : Handle) (model_str : String) (r : EngineState × Handle × Trace)
    (hdb : db < st.dbs.length)
    (hx : extend E st db model_str = .ok r) :
    r.2.1 ≠ db ∧
    (∃ stmts, E.parseStmts model_str = .ok stmts ∧
      contents r.1 r.2.1 = contents st db ++ stmts) ∧
    r.1.dbs[db]? = st.dbs[db]? := by
  unfold extend at hx
  cases hp : E.parseStmts model_str with
  | error e =>
    rw [hp] at hx
    simp [Bind.bind, Except.bind] at hx
  | ok stmts =>
    rw [hp] at hx
    simp only [Bind.bind, Except.bind, allocDB, pure, Except.pure,
      Except.ok.injEq] at hx
    subst hx
    have hfresh : st.dbs.length <
        (⟨st.dbs ++ [⟨contents st db⟩]⟩ : EngineState).dbs.length := by
      simp
    have hc0 : contents (⟨st.dbs ++ [⟨contents st db⟩]⟩ : EngineState)
        st.dbs.length = contents st db := by
      simp [contents, List.getD, List.getElem?_append_right (Nat.le_refl _)]
    have hmain := foldl_addStmt stmts ⟨st.dbs ++ [⟨contents st db⟩]⟩
      st.dbs.length hfresh
    refine ⟨Nat.ne_of_gt hdb, ⟨stmts, rfl, ?_⟩, ?_⟩
    · rw [hmain.1, hc0]
    · have hne : db ≠ st.dbs.length := Nat.ne_of_lt hdb
      rw [hmain.2.2 db hne]
      simp [List.getElem?_append_left hdb]

/-- Witness for claim C2 at a concrete input. -/
theorem extend_fresh_layered_frame_witness :
    (1 : Handle) ≠ 0 ∧
    (∃ stmts, specEngine.parseStmts "0.5::a." = .ok stmts ∧
      contents ⟨[⟨[]⟩, ⟨[.fact "a" (5/10)]⟩]⟩ 1 = contents ⟨[⟨[]⟩]⟩ 0 ++ stmts) ∧
    (⟨[⟨[]⟩, ⟨[.fact "a" (5/10)]⟩]⟩ : EngineState).dbs[0]? =
      (⟨[⟨[]⟩]⟩ : EngineState).dbs[0]? :=
  extend_fresh_layered_frame specEngine ⟨[⟨[]⟩]⟩ 0 "0.5::a."
    (⟨[⟨[]⟩, ⟨[.fact "a" (5/10)]⟩]⟩, 1, [.dbExtend, .prologString, .addStatement])
    (by decide) (by with_unfolding_all decide)

/-- Claim C9 — passing `None` for the evidence (the Python default) is
the same call as passing the empty evidence list. -/
theorem query_none_evidence_eq_empty (E : EngineModel) (st : EngineState)
    (model : Model) (queries : List String) :
    query E st model queries none = query E st model queries (some []) := rfl

/-- Claim C8 — querying a program string is the same as precompiling it
and querying the resulting database handle: the returned mappings (and
errors) coincide. -/
theorem query_string_eq_query_precompiled (E : EngineModel) (st : EngineState)
    (s : String) (queries : List String)
    (evidence : Option (List (String × Bool))) :
    (query E st (.str s) queries evidence).map Prod.fst =
    (precompile E st s).bind fun r =>
      (query E r.1 (.db r.2.1) queries evidence).map Prod.fst := by
  cases hp : E.parseStmts s with
  | error e =>
    simp [query, precompile, hp, Bind.bind, Except.bind, Except.map]
  | ok stmts =>
    simp only [query, precompile, hp, exceptPureOk, exceptBindOk, exceptMethodBindOk]
    cases hg : E.groundAllOp (contents (allocDB st ⟨stmts⟩).1 (allocDB st ⟨stmts⟩).2)
        queries (evidence.getD []) with
    | error e => rfl
    | ok lf =>
      simp only [exceptBindOk]
      cases he : evaluate E (allocDB st ⟨stmts⟩).1 (.lf lf) with
      | error e => rfl
      | ok m => rfl

/-- Claim C1 as stated is false: at the concrete call below, `query`
makes five external library calls (`PrologString`, `engine.prepare`,
`engine.ground_all`, `create_from`, `.evaluate()`), not exactly one. -/
theorem query_single_call_counterexample :
    (query specEngine ⟨[]⟩ (.str "0.5::a.") ["a"] none).map (fun r => r.2) =
      .ok [.prologString, .prepare, .groundAll, .createFrom, .evalCall] ∧
    ([APICall.prologString, .prepare, .groundAll, .createFrom, .evalCall] : Trace).length ≠ 1 :=
  ⟨by with_unfolding_all decide, by decide⟩

/-- Claim C1, amended — the call traces of the five helpers: each of
`precompile`, `evaluate`, and the two `run` helpers is a straight-line
pass-through, but makes two to four external library calls; `query`
branches on whether its model argument is a string, making five calls
for a string and three for a database handle; `extend` makes a
`db.extend()` call, a parse, and one statement-add per parsed
statement. -/
theorem helper_call_traces (E : EngineModel) (st : EngineState) (s : String)
    (h : Handle) (qs : List String) (ev : Option (List (String × Bool))) :
    (∀ r, precompile E st s = .ok r → r.2.2 = [.prologString, .prepare]) ∧
    (∀ x r, evaluate E st x = .ok r → r.2 = [.createFrom, .evalCall]) ∧
    (∀ r, runMDP E st s = .ok r →
      r.2 = [.prologString, .prepare, .createFrom, .evalCall]) ∧
    (∀ r, runIntro E s = .ok r →
      r.2 = [.prologString, .createFrom, .evalCall]) ∧
    (∀ r, query E st (.str s) qs ev = .ok r →
      r.2 = [.prologString, .prepare, .groundAll, .createFrom, .evalCall]) ∧
    (∀ r, query E st (.db h) qs ev = .ok r →
      r.2 = [.groundAll, .createFrom, .evalCall]) ∧
    (∀ stmts r, E.parseStmts s = .ok stmts → extend E st h s = .ok r →
      r.2.2 = [.dbExtend, .prologString] ++ stmts.map fun _ => .addStatement) := by
  have hpre : ∀ r, precompile E st s = .ok r → r.2.2 = [.prologString, .prepare] := by
    intro r hr
    unfold precompile at hr
    cases hp : E.parseStmts s with
    | error e => rw [hp] at hr; simp [exceptBindError] at hr
    | ok stmts =>
      rw [hp] at hr
      simp only [exceptBindOk, exceptPureOk, Except.ok.injEq] at hr
      rw [← hr]
  have heval : ∀ st' x r, evaluate E st' x = .ok r → r.2 = [.createFrom, .evalCall] := by
    intro st' x r hr
    unfold evaluate at hr
    cases hp : E.evalDB (evalInput st' x) with
    | error e => rw [hp] at hr; simp [exceptBindError] at hr
    | ok m =>
      rw [hp] at hr
      simp only [exceptBindOk, exceptPureOk, Except.ok.injEq] at hr
      rw [← hr]
  refine ⟨hpre, heval st, ?_, ?_, ?_, ?_, ?_⟩
  · intro r hr
    unfold runMDP at hr
    cases hp : precompile E st s with
    | error e => rw [hp] at hr; simp [exceptBindError] at hr
    | ok r1 =>
      rw [hp] at hr
      simp only [exceptBindOk] at hr
      cases he : evaluate E r1.1 (.db r1.2.1) with
      | error e => rw [he] at hr; simp [exceptBindError] at hr
      | ok r2 =>
        rw [he] at hr
        simp only [exceptBindOk, exceptPureOk, Except.ok.injEq] at hr
        have h1 := hpre r1 hp
        have h2 : r2.2 = [.createFrom, .evalCall] := heval r1.1 _ r2 he
        rw [← hr, h1, h2]
        rfl
  · intro r hr
    unfold runIntro at hr
    cases hp : E.parseStmts s with
    | error e => rw [hp] at hr; simp [exceptBindError] at hr
    | ok stmts =>
      rw [hp] at hr
      simp only [exceptBindOk] at hr
      cases he : E.evalDB stmts with
      | error e => rw [he] at hr; simp [exceptBindError] at hr
      | ok m =>
        rw [he] at hr
        simp only [exceptBindOk, exceptPureOk, Except.ok.injEq] at hr
        rw [← hr]
  · intro r hr
    simp only [query] at hr
    cases hp : precompile E st s with
    | error e => rw [hp] at hr; simp [exceptBindError] at hr
    | ok r1 =>
      rw [hp] at hr
      simp only [exceptBindOk] at hr
      cases hg : E.groundAllOp (contents r1.1 r1.2.1) qs (ev.getD []) with
      | error e => rw [hg] at hr; simp [exceptBindError] at hr
      | ok lf =>
        rw [hg] at hr
        simp only [exceptBindOk] at hr
        cases he : evaluate E r1.1 (.lf lf) with
        | error e => rw [he] at hr; simp [exceptBindError] at hr
        | ok r2 =>
          rw [he] at hr
          simp only [exceptBindOk, exceptPureOk, Except.ok.injEq] at hr
          rw [← hr, hpre r1 hp, heval r1.1 _ r2 he]
          rfl
  · intro r hr
    simp only [query, exceptPureOk, exceptBindOk] at hr
    cases hg : E.groundAllOp (contents st h) qs (ev.getD []) with
    | error e => rw [hg] at hr; simp [exceptBindError] at hr
    | ok lf =>
      rw [hg] at hr
      simp only [exceptBindOk] at hr
      cases he : evaluate E st (.lf lf) with
      | error e => rw [he] at hr; simp [exceptBindError] at hr
      | ok r2 =>
        rw [he] at hr
        simp only [exceptBindOk, exceptPureOk, Except.ok.injEq] at hr
        rw [← hr, heval st _ r2 he]
        rfl
  · intro stmts r hp hr
    unfold extend at hr
    rw [hp] at hr
    simp only [exceptBindOk, exceptPureOk, Except.ok.injEq] at hr
    rw [← hr]

/-- Witness for the amended claim C1 at a concrete `query` call on a
program string. -/
theorem helper_call_traces_witness :
    (([("a", (5 : ℚ)/10)],
        [APICall.prologString, .prepare, .groundAll, .createFrom, .evalCall]) :
      ProbMap × Trace).2 =
      [.prologString, .prepare, .groundAll, .createFrom, .evalCall] :=
  (helper_call_traces specEngine ⟨[]⟩ "0.5::a." 0 ["a"] none).2.2.2.2.1 _
    (by with_unfolding_all decide)

/-- Claim C3 — none of the helpers catches or transforms errors: when an
underlying engine operation fails with error `e`, the helper call fails
with exactly `e`. -/
theorem errors_propagate_unmodified (E : EngineModel) (st : EngineState)
    (x : EvalArg) (h : Handle) (s : String) (qs : List String)
    (ev : Option (List (String × Bool))) (e : Err) (lf : List Stmt) :
    (E.parseStmts s = .error e → precompile E st s = .error e) ∧
    (E.parseStmts s = .error e → extend E st h s = .error e) ∧
    (E.evalDB (evalInput st x) = .error e → evaluate E st x = .error e) ∧
    (E.parseStmts s = .error e → query E st (.str s) qs ev = .error e) ∧
    (E.groundAllOp (contents st h) qs (ev.getD []) = .error e →
      query E st (.db h) qs ev = .error e) ∧
    (E.groundAllOp (contents st h) qs (ev.getD []) = .ok lf →
      E.evalDB lf = .error e → query E st (.db h) qs ev = .error e) ∧
    (E.parseStmts s = .error e → runMDP E st s = .error e) ∧
    (E.parseStmts s = .error e → runIntro E s = .error e) ∧
    (∀ stmts, E.parseStmts s = .ok stmts → E.evalDB stmts = .error e →
      runIntro E s = .error e) := by
  refine ⟨?_, ?_, ?_, ?_, ?_, ?_, ?_, ?_, ?_⟩
  · intro hp
    simp [precompile, hp, exceptBindError]
  · intro hp
    simp [extend, hp, exceptBindError]
  · intro hp
    simp [evaluate, hp, exceptBindError]
  · intro hp
    simp [query, precompile, hp, exceptBindError, exceptBindOk, exceptPureOk]
  · intro hg
    simp [query, hg, exceptBindError, exceptBindOk, exceptPureOk]
  · intro hg he
    simp [query, evaluate, evalInput, hg, he, exceptBindError, exceptBindOk,
      exceptPureOk]
  · intro hp
    simp [runMDP, precompile, hp, exceptBindError, exceptBindOk, exceptPureOk]
  · intro hp
    simp [runIntro, hp, exceptBindError]
  · intro stmts hp he
    simp [runIntro, hp, he, exceptBindError, exceptBindOk]

/-- Witness for claim C3: `precompile` and `query` forward the parse
error of an ill-formed program string (no terminating period). -/
theorem errors_propagate_unmodified_witness :
    precompile specEngine ⟨[]⟩ "x" = .error (.parseErr "x") ∧
    query specEngine ⟨[]⟩ (.str "x") ["a"] none = .error (.parseErr "x") :=
  ⟨(errors_propagate_unmodified specEngine ⟨[]⟩ (.lf []) 0 "x" ["a"] none
      (.parseErr "x") []).1 (by with_unfolding_all decide),
   (errors_propagate_unmodified specEngine ⟨[]⟩ (.lf []) 0 "x" ["a"] none
      (.parseErr "x") []).2.2.2.1 (by with_unfolding_all decide)⟩

theorem evalProgram_keys (prog : List Stmt) (m : ProbMap)
    (hm : evalProgram prog = .ok m) : m.map Prod.fst = queryAtomsOf prog := by
  unfold evalProgram at hm
  by_cases hall : (pfactsOf prog).all fun f => decide (0 ≤ f.2) && decide (f.2 ≤ 1)
  · rw [if_pos hall] at hm
    by_cases hz : sumOver (worlds (pfactsOf prog).length)
        (fun w => if evidHolds prog (pfactsOf prog) w
          then worldProb (pfactsOf prog) w else 0) = 0
    · rw [if_pos hz] at hm
      exact absurd hm (by simp)
    · rw [if_neg hz] at hm
      injection hm with hm
      rw [← hm, List.map_map]
      exact List.map_id _
  · rw [if_neg hall] at hm
    exact absurd hm (by simp)

/-- Claim C5 — the introduction notebook's `run` submits the program
text to the library and prints exactly the mapping the library's
evaluation returns, keyed by the program's declared queries. -/
theorem run_prints_returned_mapping (s : String) (stmts : List Stmt)
    (m : ProbMap) (hp : specEngine.parseStmts s = .ok stmts)
    (he : specEngine.evalDB stmts = .ok m) :
    runIntro specEngine s = .ok (m, [.prologString, .createFrom, .evalCall]) ∧
    m.map Prod.fst = queryAtomsOf stmts := by
  constructor
  · simp [runIntro, hp, he, exceptBindOk, exceptPureOk]
  · exact evalProgram_keys stmts m he

/-- Witness for claim C5 at the literal model `m1` of the introduction
notebook. -/
theorem run_prints_returned_mapping_witness :
    runIntro specEngine m1src =
      .ok ([("a", 65/100), ("b", 10/100)],
        [.prologString, .createFrom, .evalCall]) ∧
    ([("a", (65 : ℚ)/100), ("b", 10/100)] : ProbMap).map Prod.fst =
      queryAtomsOf [.fact "a" (65/100), .fact "b" (10/100),
        .queryDecl "a", .queryDecl "b"] :=
  run_prints_returned_mapping m1src
    [.fact "a" (65/100), .fact "b" (10/100), .queryDecl "a", .queryDecl "b"]
    [("a", 65/100), ("b", 10/100)]
    (by with_unfolding_all decide) (by with_unfolding_all decide)

/-- Claim C7 — running the literal model `m4` of the introduction
notebook: the four queried world atoms have probabilities
`0.65 * 0.10`, `0.65 * 0.90`, `0.35 * 0.10`, `0.35 * 0.90`; these sum
to `1`, and `0.35`, `0.90` are the failure probabilities `1 - 0.65`
and `1 - 0.10` of the two independent probabilistic facts. -/
theorem m4_world_probabilities :
    runIntro specEngine m4src =
      .ok ([("w1", (65/100) * (10/100)), ("w2", (65/100) * (90/100)),
            ("w3", (35/100) * (10/100)), ("w4", (35/100) * (90/100))],
        [.prologString, .createFrom, .evalCall]) ∧
    (65/100 : ℚ) * (10/100) + (65/100) * (90/100) + (35/100) * (10/100)
      + (35/100) * (90/100) = 1 ∧
    (35/100 : ℚ) = 1 - 65/100 ∧ (90/100 : ℚ) = 1 - 10/100 :=
  ⟨by with_unfolding_all decide, by norm_num, by norm_num, by norm_num⟩

theorem evalProgram_mem_unit (prog : List Stmt) (m : ProbMap)
    (hm : evalProgram prog = .ok m) :
    ∀ a p, (a, p) ∈ m → 0 ≤ p ∧ p ≤ 1 := by
  unfold evalProgram at hm
  by_cases hall : (pfactsOf prog).all fun f => decide (0 ≤ f.2) && decide (f.2 ≤ 1)
  case neg => rw [if_neg hall] at hm; exact absurd hm (by simp)
  rw [if_pos hall] at hm
  have hfb : ∀ f ∈ pfactsOf prog, 0 ≤ f.2 ∧ f.2 ≤ 1 := by
    intro f hf
    have hx := List.all_eq_true.mp hall f hf
    simpa using hx
  have hwp : ∀ w, 0 ≤ worldProb (pfactsOf prog) w := by
    intro w
    apply List.prod_nonneg
    intro x hx
    rcases List.mem_map.mp hx with ⟨fv, hfv, rfl⟩
    have hb := hfb fv.1 (List.of_mem_zip hfv).1
    split
    · exact hb.1
    · exact sub_nonneg.mpr hb.2
  by_cases hz : sumOver (worlds (pfactsOf prog).length)
      (fun w => if evidHolds prog (pfactsOf prog) w
        then worldProb (pfactsOf prog) w else 0) = 0
  case pos => rw [if_pos hz] at hm; exact absurd hm (by simp)
  rw [if_neg hz] at hm
  injection hm with hm
  have hz0 : 0 ≤ sumOver (worlds (pfactsOf prog).length)
      (fun w => if evidHolds prog (pfactsOf prog) w
        then worldProb (pfactsOf prog) w else 0) := by
    apply List.sum_nonneg
    intro x hx
    rcases List.mem_map.mp hx with ⟨w, hw, rfl⟩
    split
    · exact hwp w
    · exact le_refl 0
  have hzpos : 0 < sumOver (worlds (pfactsOf prog).length)
      (fun w => if evidHolds prog (pfactsOf prog) w
        then worldProb (pfactsOf prog) w else 0) :=
    lt_of_le_of_ne hz0 (Ne.symm hz)
  intro a p hmem
  rw [← hm] at hmem
  rcases List.mem_map.mp hmem with ⟨q, hq, heq⟩
  have hp2 : p = (sumOver (worlds (pfactsOf prog).length)
      (fun w => if atomHolds prog (pfactsOf prog) w q
          && evidHolds prog (pfactsOf prog) w
        then worldProb (pfactsOf prog) w else 0)) /
      sumOver (worlds (pfactsOf prog).length)
        (fun w => if evidHolds prog (pfactsOf prog) w
          then worldProb (pfactsOf prog) w else 0) :=
    (congrArg Prod.snd heq).symm
  have hnum0 : 0 ≤ sumOver (worlds (pfactsOf prog).length)
      (fun w => if atomHolds prog (pfactsOf prog) w q
          && evidHolds prog (pfactsOf prog) w
        then worldProb (pfactsOf prog) w else 0) := by
    apply List.sum_nonneg
    intro x hx
    rcases List.mem_map.mp hx with ⟨w, hw, rfl⟩
    split
    · exact hwp w
    · exact le_refl 0
  have hnumle : sumOver (worlds (pfactsOf prog).length)
      (fun w => if atomHolds prog (pfactsOf prog) w q
          && evidHolds prog (pfactsOf prog) w
        then worldProb (pfactsOf prog) w else 0) ≤
      sumOver (worlds (pfactsOf prog).length)
        (fun w => if evidHolds prog (pfactsOf prog) w
          then worldProb (pfactsOf prog) w else 0) := by
    apply List.sum_le_sum
    intro w hw
    by_cases he : evidHolds prog (pfactsOf prog) w = true
    · by_cases ha : atomHolds prog (pfactsOf prog) w q = true
      · rw [if_pos (by simp [ha, he]), if_pos he]
      · rw [if_neg (by simp [ha]), if_pos he]
        exact hwp w
    · rw [if_neg (by simp [he]), if_neg he]
  constructor
  · rw [hp2]
    exact div_nonneg hnum0 hz0
  · rw [hp2]
    exact (div_le_one hzpos).mpr hnumle

theorem evaluate_ok_probmap (E : EngineModel) (st : EngineState) (x : EvalArg)
    (r : ProbMap × Trace) (h : evaluate E st x = .ok r) :
    E.evalDB (evalInput st x) = .ok r.1 := by
  unfold evaluate at h
  cases hp : E.evalDB (evalInput st x) with
  | error e => rw [hp] at h; simp [exceptBindError] at h
  | ok m =>
    rw [hp] at h
    simp only [exceptBindOk, exceptPureOk, Except.ok.injEq] at h
    rw [← h]

theorem query_ok_probmap (E : EngineModel) (st : EngineState) (model : Model)
    (qs : List String) (ev : Option (List (String × Bool)))
    (r : ProbMap × Trace) (h : query E st model qs ev = .ok r) :
    ∃ l, E.evalDB l = .ok r.1 := by
  cases model with
  | str s =>
    simp only [query] at h
    cases hp : precompile E st s with
    | error e => rw [hp] at h; simp [exceptBindError] at h
    | ok r1 =>
      rw [hp] at h
      simp only [exceptBindOk] at h
      cases hg : E.groundAllOp (contents r1.1 r1.2.1) qs (ev.getD []) with
      | error e => rw [hg] at h; simp [exceptBindError] at h
      | ok lf =>
        rw [hg] at h
        simp only [exceptBindOk] at h
        cases he : evaluate E r1.1 (.lf lf) with
        | error e => rw [he] at h; simp [exceptBindError] at h
        | ok r2 =>
          rw [he] at h
          simp only [exceptBindOk, exceptPureOk, Except.ok.injEq] at h
          refine ⟨lf, ?_⟩
          have := evaluate_ok_probmap E r1.1 (.lf lf) r2 he
          rw [← h]
          exact this
  | db hd =>
    simp only [query, exceptPureOk, exceptBindOk] at h
    cases hg : E.groundAllOp (contents st hd) qs (ev.getD []) with
    | error e => rw [hg] at h; simp [exceptBindError] at h
    | ok lf =>
      rw [hg] at h
      simp only [exceptBindOk] at h
      cases he : evaluate E st (.lf lf) with
      | error e => rw [he] at h; simp [exceptBindError] at h
      | ok r2 =>
        rw [he] at h
        simp only [exceptBindOk, exceptPureOk, Except.ok.injEq] at h
        refine ⟨lf, ?_⟩
        have := evaluate_ok_probmap E st (.lf lf) r2 he
        rw [← h]
        exact this

theorem runMDP_ok_probmap (E : EngineModel) (st : EngineState) (s : String)
    (r : ProbMap × Trace) (h : runMDP E st s = .ok r) :
    ∃ l, E.evalDB l = .ok r.1 := by
  unfold runMDP at h
  cases hp : precompile E st s with
  | error e => rw [hp] at h; simp [exceptBindError] at h
  | ok r1 =>
    rw [hp] at h
    simp only [exceptBindOk] at h
    cases he : evaluate E r1.1 (.db r1.2.1) with
    | error e => rw [he] at h; simp [exceptBindError] at h
    | ok r2 =>
      rw [he] at h
      simp only [exceptBindOk, exceptPureOk, Except.ok.injEq] at h
      refine ⟨evalInput r1.1 (.db r1.2.1), ?_⟩
      have := evaluate_ok_probmap E r1.1 (.db r1.2.1) r2 he
      rw [← h]
      exact this

theorem runIntro_ok_probmap (E : EngineModel) (s : String)
    (r : ProbMap × Trace) (h : runIntro E s = .ok r) :
    ∃ l, E.evalDB l = .ok r.1 := by
  unfold runIntro at h
  cases hp : E.parseStmts s with
  | error e => rw [hp] at h; simp [exceptBindError] at h
  | ok stmts =>
    rw [hp] at h
    simp only [exceptBindOk] at h
    cases he : E.evalDB stmts with
    | error e => rw [he] at h; simp [exceptBindError] at h
    | ok m =>
      rw [he] at h
      simp only [exceptBindOk, exceptPureOk, Except.ok.injEq] at h
      refine ⟨stmts, ?_⟩
      rw [← h]
      exact he

/-- Claim C4 — whenever evaluation succeeds, the returned mapping
assigns every queried term a probability in the closed interval
`[0, 1]`; this holds for the `evaluate` helper and for the `query` and
`run` helpers built on it. -/
theorem evaluation_probabilities_unit_interval (st : EngineState)
    (x : EvalArg) (model : Model) (qs : List String)
    (ev : Option (List (String × Bool))) (s : String) :
    (∀ r, evaluate specEngine st x = .ok r →
      ∀ a p, (a, p) ∈ r.1 → 0 ≤ p ∧ p ≤ 1) ∧
    (∀ r, query specEngine st model qs ev = .ok r →
      ∀ a p, (a, p) ∈ r.1 → 0 ≤ p ∧ p ≤ 1) ∧
    (∀ r, runMDP specEngine st s = .ok r →
      ∀ a p, (a, p) ∈ r.1 → 0 ≤ p ∧ p ≤ 1) ∧
    (∀ r, runIntro specEngine s = .ok r →
      ∀ a p, (a, p) ∈ r.1 → 0 ≤ p ∧ p ≤ 1) := by
  refine ⟨?_, ?_, ?_, ?_⟩
  · intro r hr
    exact evalProgram_mem_unit _ r.1 (evaluate_ok_probmap specEngine st x r hr)
  · intro r hr
    obtain ⟨l, hl⟩ := query_ok_probmap specEngine st model qs ev r hr
    exact evalProgram_mem_unit l r.1 hl
  · intro r hr
    obtain ⟨l, hl⟩ := runMDP_ok_probmap specEngine st s r hr
    exact evalProgram_mem_unit l r.1 hl
  · intro r hr
    obtain ⟨l, hl⟩ := runIntro_ok_probmap specEngine s r hr
    exact evalProgram_mem_unit l r.1 hl

/-- Witness for claim C4: evaluating a concrete one-fact program
returns probability `1/2`, which lies in `[0, 1]`. -/
theorem evaluation_probabilities_unit_interval_witness :
    0 ≤ (5 : ℚ)/10 ∧ (5 : ℚ)/10 ≤ 1 :=
  (evaluation_probabilities_unit_interval ⟨[]⟩
      (.lf [.fact "a" (5/10), .queryDecl "a"]) (.str "x") [] none "x").1
    ([("a", 5/10)], [.createFrom, .evalCall])
    (by with_unfolding_all decide) "a" (5/10) (List.mem_singleton.mpr rfl)

theorem lookup_none_of_not_mem {β : Type} (s : List (String × β)) (a : String)
    (h : a ∉ s.map Prod.fst) : s.lookup a = none := by
  induction s with
  | nil => rfl
  | cons x xs ih =>
    obtain ⟨k, v⟩ := x
    simp only [List.map_cons, List.mem_cons] at h
    push_neg at h
    have hk : (a == k) = false := by
      simp [h.1]
    simp [List.lookup, hk, ih h.2]

theorem sampleIncr_eq_ite (s : List (String × Bool)) (a : String) :
    sampleIncr s a = if s.lookup a == some true then 1 else 0 := by
  unfold sampleIncr
  cases h : s.lookup a with
  | none => simp
  | some b => cases b <;> simp

theorem keys_map_counts (c : List (String × ℕ)) (f : String × ℕ → ℕ) :
    ((c.map fun an => (an.1, f an)).map Prod.fst) = c.map Prod.fst := by
  simp [List.map_map, Function.comp]

theorem updateCount_eq (c : List (String × ℕ)) (a : String) (v : Bool)
    (hmem : a ∈ c.map Prod.fst) (hnd : (c.map Prod.fst).Nodup) :
    updateCount c a v = some (c.map fun an =>
      (an.1, an.2 + if an.1 = a then (if v then 1 else 0) else 0)) := by
  induction c with
  | nil => simp at hmem
  | cons x rest ih =>
    simp only [List.map_cons, List.nodup_cons] at hnd
    by_cases hx : x.1 = a
    · have hrest : rest.map (fun an =>
          (an.1, an.2 + if an.1 = a then (if v then 1 else 0) else 0)) = rest := by
        have hpt : ∀ an ∈ rest, (an.1, an.2 +
            if an.1 = a then (if v then 1 else 0) else 0) = an := by
          intro an han
          have hne : an.1 ≠ a := by
            intro hcon
            apply hnd.1
            have hmm : an.1 ∈ rest.map Prod.fst := List.mem_map_of_mem Prod.fst han
            rw [hcon, ← hx] at hmm
            exact hmm
          simp [hne]
        calc rest.map (fun an =>
              (an.1, an.2 + if an.1 = a then (if v then 1 else 0) else 0))
            = rest.map id := List.map_congr_left hpt
          _ = rest := List.map_id rest
      simp only [updateCount, if_pos hx, List.map_cons, hx, if_pos, hrest]
    · have hmem' : a ∈ x.1 :: rest.map Prod.fst := by
        simpa only [List.map_cons] using hmem
      have hmem2 : a ∈ rest.map Prod.fst := by
        rcases List.mem_cons.mp hmem' with h1 | h2
        · exact absurd h1.symm hx
        · exact h2
      have hih := ih hmem2 hnd.2
      simp only [updateCount, if_neg hx, hih]
      rw [List.map_cons, if_neg hx]
      rfl

theorem processSample_eq (s : List (String × Bool)) (c : List (String × ℕ))
    (hsub : ∀ a ∈ s.map Prod.fst, a ∈ c.map Prod.fst)
    (hnds : (s.map Prod.fst).Nodup) (hndc : (c.map Prod.fst).Nodup) :
    processSample c s = some (c.map fun an =>
      (an.1, an.2 + sampleIncr s an.1)) := by
  induction s generalizing c with
  | nil =>
    have : c.map (fun an => (an.1, an.2 + sampleIncr [] an.1)) = c := by
      have hpt : ∀ an ∈ c, (an.1, an.2 + sampleIncr [] an.1) = an := by
        intro an han
        simp [sampleIncr, List.lookup]
      calc c.map (fun an => (an.1, an.2 + sampleIncr [] an.1))
          = c.map id := List.map_congr_left hpt
        _ = c := List.map_id c
    simp [processSample, this]
  | cons av s' ih =>
    obtain ⟨a0, v0⟩ := av
    simp only [List.map_cons, List.nodup_cons] at hnds
    have hmem0 : a0 ∈ c.map Prod.fst := hsub a0 (by simp)
    have hup := updateCount_eq c a0 v0 hmem0 hndc
    have hkeys : ((c.map fun an => (an.1, an.2 +
        if an.1 = a0 then (if v0 then 1 else 0) else 0)).map Prod.fst)
        = c.map Prod.fst := keys_map_counts c _
    have hsub2 : ∀ a ∈ s'.map Prod.fst,
        a ∈ ((c.map fun an => (an.1, an.2 +
          if an.1 = a0 then (if v0 then 1 else 0) else 0)).map Prod.fst) := by
      intro a ha
      rw [hkeys]
      exact hsub a (by simp [ha])
    have hndc2 : (((c.map fun an => (an.1, an.2 +
        if an.1 = a0 then (if v0 then 1 else 0) else 0)).map Prod.fst)).Nodup := by
      rw [hkeys]; exact hndc
    have hih := ih _ hsub2 hnds.2 hndc2
    have hcomb : ((c.map fun an => (an.1, an.2 +
        if an.1 = a0 then (if v0 then 1 else 0) else 0)).map fun an =>
          (an.1, an.2 + sampleIncr s' an.1)) =
        c.map fun an => (an.1, an.2 + sampleIncr ((a0, v0) :: s') an.1) := by
      rw [List.map_map]
      apply List.map_congr_left
      intro an han
      simp only [Function.comp]
      by_cases hx : an.1 = a0
      · have hs' : s'.lookup an.1 = none :=
          lookup_none_of_not_mem s' an.1 (by rw [hx]; exact hnds.1)
        have hl : List.lookup an.1 ((a0, v0) :: s') = some v0 := by
          simp [List.lookup, hx]
        rw [sampleIncr_eq_ite, sampleIncr_eq_ite, hs', hl]
        cases v0 <;> simp [hx]
      · have hbeq : (an.1 == a0) = false := by simp [hx]
        have hl : List.lookup an.1 ((a0, v0) :: s') = s'.lookup an.1 := by
          simp [List.lookup, hbeq]
        rw [sampleIncr_eq_ite, sampleIncr_eq_ite, hl]
        simp [hx]
    calc processSample c ((a0, v0) :: s')
        = updateCount c a0 v0 >>= fun c1 => processSample c1 s' := by
          simp [processSample, List.foldlM_cons]
      _ = some (c.map fun an => (an.1, an.2 + sampleIncr ((a0, v0) :: s') an.1)) := by
          rw [hup]
          simp only [optionBindSome]
          rw [hih, hcomb]

theorem foldlM_processSample (l : List (List (String × Bool)))
    (c : List (String × ℕ)) (K : List String)
    (hc : c.map Prod.fst = K) (hndK : K.Nodup)
    (hl : ∀ s ∈ l, (s.map Prod.fst).Perm K) :
    l.foldlM processSample c = some (c.map fun an =>
      (an.1, an.2 + (l.map fun s => sampleIncr s an.1).sum)) := by
  induction l generalizing c with
  | nil =>
    have : c.map (fun an => (an.1, an.2 + ([] : List ℕ).sum)) = c := by
      have hpt : ∀ an ∈ c, (an.1, an.2 + ([] : List ℕ).sum) = an := by
        intro an han; simp
      calc c.map (fun an => (an.1, an.2 + ([] : List ℕ).sum))
          = c.map id := List.map_congr_left hpt
        _ = c := List.map_id c
    simp [this]
  | cons s l' ih =>
    have hperm := hl s (by simp)
    have hsub : ∀ a ∈ s.map Prod.fst, a ∈ c.map Prod.fst := by
      intro a ha
      rw [hc]
      exact hperm.mem_iff.mp ha
    have hnds : (s.map Prod.fst).Nodup := hperm.nodup_iff.mpr (hc ▸ hndK)
    have hndc : (c.map Prod.fst).Nodup := hc ▸ hndK
    have hps := processSample_eq s c hsub hnds hndc
    have hkeys : ((c.map fun an => (an.1, an.2 + sampleIncr s an.1)).map Prod.fst)
        = K := by rw [keys_map_counts, hc]
    have hih := ih _ hkeys (fun s2 hs2 => hl s2 (by simp [hs2]))
    calc (s :: l').foldlM processSample c
        = processSample c s >>= fun c1 => l'.foldlM processSample c1 := by
          simp [List.foldlM_cons]
      _ = some (c.map fun an =>
            (an.1, an.2 + ((s :: l').map fun s2 => sampleIncr s2 an.1).sum)) := by
          rw [hps]
          simp only [optionBindSome]
          rw [hih]
          congr 1
          rw [List.map_map]
          apply List.map_congr_left
          intro an han
          simp [Function.comp, Nat.add_assoc]

theorem sum_sampleIncr (l : List (List (String × Bool))) (a : String) :
    (l.map fun s => sampleIncr s a).sum =
      l.countP fun s => s.lookup a == some true := by
  induction l with
  | nil => rfl
  | cons s l' ih =>
    rw [List.map_cons, List.sum_cons, List.countP_cons, ih, sampleIncr_eq_ite]
    omega

/-- Claim C10 — on a nonempty sample list in which every sample's atom
set equals the first sample's, the Monte Carlo estimation cell raises no
`KeyError` and returns, for each atom of the first sample, the fraction
of samples in which that atom is true; each such fraction lies in
`[0, 1]`. -/
theorem estimates_monte_carlo (r0 : List (String × Bool))
    (rest : List (List (String × Bool)))
    (hnd : (r0.map Prod.fst).Nodup)
    (hperm : ∀ s ∈ r0 :: rest, (s.map Prod.fst).Perm (r0.map Prod.fst)) :
    estimatesOf (r0 :: rest) = some (r0.map fun av =>
      (av.1, (((r0 :: rest).countP fun s => s.lookup av.1 == some true : ℕ) : ℚ) /
        (r0 :: rest).length)) ∧
    ∀ a, 0 ≤ (((r0 :: rest).countP fun s => s.lookup a == some true : ℕ) : ℚ) /
        (r0 :: rest).length ∧
      (((r0 :: rest).countP fun s => s.lookup a == some true : ℕ) : ℚ) /
        (r0 :: rest).length ≤ 1 := by
  constructor
  · have hinitkeys : ((r0.map fun av => (av.1, (0 : ℕ))).map Prod.fst)
        = r0.map Prod.fst := by
      simp [List.map_map, Function.comp]
    have hfold := foldlM_processSample (r0 :: rest)
      (r0.map fun av => (av.1, (0 : ℕ))) (r0.map Prod.fst) hinitkeys hnd hperm
    rw [show estimatesOf (r0 :: rest) =
      ((r0 :: rest).foldlM processSample (r0.map fun av => (av.1, (0 : ℕ)))).map
        (fun cnt => cnt.map fun an => (an.1, (an.2 : ℚ) / (r0 :: rest).length))
      from rfl]
    rw [hfold]
    simp only [optionMapSome, Option.some.injEq]
    rw [List.map_map, List.map_map]
    apply List.map_congr_left
    intro av hav
    simp only [Function.comp, Nat.zero_add]
    rw [sum_sampleIncr]
  · intro a
    have hle : ((r0 :: rest).countP fun s => s.lookup a == some true)
        ≤ (r0 :: rest).length := List.countP_le_length _
    have hlpos : (0 : ℚ) < ((r0 :: rest).length : ℚ) := by
      have : 0 < (r0 :: rest).length := by simp
      exact_mod_cast this
    constructor
    · apply div_nonneg _ (le_of_lt hlpos)
      exact_mod_cast Nat.zero_le _
    · rw [div_le_one hlpos]
      exact_mod_cast hle

/-- Witness for claim C10 at a concrete two-sample run. -/
theorem estimates_monte_carlo_witness :
    estimatesOf [[("a", true), ("b", false)], [("a", false), ("b", true)]] =
      some [("a", (1 : ℚ)/2), ("b", 1/2)] := by
  have h := estimates_monte_carlo [("a", true), ("b", false)]
    [[("a", false), ("b", true)]] (by decide) (by decide)
  rw [h.1]
  with_unfolding_all decide

theorem countP_flatMap {α β : Type} (l : List α) (g : α → List β)
    (p : β → Bool) :
    (l.flatMap g).countP p = (l.map fun a => (g a).countP p).sum := by
  induction l with
  | nil => rfl
  | cons x xs ih =>
    simp [List.flatMap_cons, List.countP_append, ih]

theorem sum_ite_count {α : Type} (l : List α) (p : α → Bool) (C : ℕ) :
    (l.map fun a => if p a then C else 0).sum = l.countP p * C := by
  induction l with
  | nil => simp
  | cons x xs ih =>
    simp only [List.map_cons, List.sum_cons, List.countP_cons, ih]
    by_cases hp : p x
    · simp [hp, Nat.add_mul, Nat.add_comm]
    · simp [hp]

theorem countP_const_and {α : Type} (l : List α) (b : Bool) (p : α → Bool) :
    l.countP (fun a => b && p a) = if b then l.countP p else 0 := by
  cases b
  · simp
  · simp

theorem decide_cons_eq {α : Type} [DecidableEq α] (x y : α) (xs ys : List α) :
    decide (x :: xs = y :: ys) = (decide (x = y) && decide (xs = ys)) := by
  by_cases h1 : x = y <;> by_cases h2 : xs = ys <;> simp [h1, h2]

theorem count_range_lt (t : ℕ) (b : Bool) (d : ℕ) :
    (List.range d).countP (fun v => decide (decide (v < t) = b)) =
      if b then min t d else d - min t d := by
  induction d with
  | zero => cases b <;> simp
  | succ d ih =>
    rw [List.range_succ, List.countP_append, ih]
    have hone : ([d].countP fun v => decide (decide (v < t) = b)) =
        if decide (d < t) = b then 1 else 0 := by
      simp [List.countP_cons]
    rw [hone]
    by_cases hdt : d < t
    · cases b <;> simp [hdt] <;> omega
    · cases b <;> simp [hdt] <;> omega

theorem count_tuples_world (d : ℕ) (fs : List (String × ℕ)) (w : List Bool)
    (hlen : w.length = fs.length) (hb : ∀ f ∈ fs, f.2 ≤ d) :
    (allTuples d fs.length).countP
      (fun seed => decide ((sampleWorld fs seed).map Prod.snd = w)) =
    ((fs.zip w).map fun fw => if fw.2 then fw.1.2 else d - fw.1.2).prod := by
  induction fs generalizing w with
  | nil =>
    cases w with
    | nil => simp [allTuples, sampleWorld]
    | cons b w' => simp at hlen
  | cons f fs' ih =>
    cases w with
    | nil => simp at hlen
    | cons b w' =>
      have hlen' : w'.length = fs'.length := by simpa using hlen
      have hb' : ∀ g ∈ fs', g.2 ≤ d := fun g hg => hb g (by simp [hg])
      have hfd : f.2 ≤ d := hb f (by simp)
      have hk : (f :: fs').length = fs'.length + 1 := rfl
      rw [hk, allTuples, countP_flatMap]
      have hinner : ∀ v, ((allTuples d fs'.length).map (v :: ·)).countP
          (fun seed => decide ((sampleWorld (f :: fs') seed).map Prod.snd
            = b :: w')) =
          if decide (decide (v < f.2) = b) then
            (allTuples d fs'.length).countP
              (fun seed => decide ((sampleWorld fs' seed).map Prod.snd = w'))
          else 0 := by
        intro v
        rw [List.countP_map]
        have hpt : ((fun seed => decide ((sampleWorld (f :: fs') seed).map
            Prod.snd = b :: w')) ∘ (v :: ·)) =
            fun seed => decide (decide (v < f.2) = b)
              && decide ((sampleWorld fs' seed).map Prod.snd = w') := by
          funext seed
          have hsw : (sampleWorld (f :: fs') (v :: seed)).map Prod.snd =
              decide (v < f.2) :: (sampleWorld fs' seed).map Prod.snd := rfl
          simp only [Function.comp, hsw]
          exact decide_cons_eq _ _ _ _
        rw [hpt, countP_const_and]
      calc ((List.range d).map fun v => ((allTuples d fs'.length).map
            (v :: ·)).countP (fun seed =>
              decide ((sampleWorld (f :: fs') seed).map Prod.snd = b :: w'))).sum
          = ((List.range d).map fun v =>
              if decide (decide (v < f.2) = b) then
                (allTuples d fs'.length).countP (fun seed =>
                  decide ((sampleWorld fs' seed).map Prod.snd = w'))
              else 0).sum := by
            apply congrArg
            exact List.map_congr_left fun v hv => hinner v
        _ = ((List.range d).countP fun v => decide (decide (v < f.2) = b)) *
              ((allTuples d fs'.length).countP (fun seed =>
                decide ((sampleWorld fs' seed).map Prod.snd = w'))) :=
            sum_ite_count _ _ _
        _ = (if b then f.2 else d - f.2) *
              ((fs'.zip w').map fun fw =>
                if fw.2 then fw.1.2 else d - fw.1.2).prod := by
            rw [count_range_lt, ih w' hlen' hb', Nat.min_eq_left hfd]
        _ = ((( f, b) :: fs'.zip w').map fun fw =>
              if fw.2 then fw.1.2 else d - fw.1.2).prod := by
            rw [List.map_cons, List.prod_cons]
        _ = (((f :: fs').zip (b :: w')).map fun fw =>
              if fw.2 then fw.1.2 else d - fw.1.2).prod := rfl

theorem count_seeds_worlds (d : ℕ) (fs : List (String × ℕ))
    (ws : List (List Bool)) (hw : ∀ w ∈ ws, w.length = fs.length)
    (hb : ∀ f ∈ fs, f.2 ≤ d) :
    (allSeeds d fs.length ws.length).countP
      (fun seeds => decide ((sampleMany fs seeds).map (List.map Prod.snd) = ws)) =
    (ws.map fun w => ((fs.zip w).map fun fw =>
      if fw.2 then fw.1.2 else d - fw.1.2).prod).prod := by
  induction ws with
  | nil => simp [allSeeds, sampleMany]
  | cons w ws' ih =>
    have hw' : ∀ u ∈ ws', u.length = fs.length := fun u hu => hw u (by simp [hu])
    have hwl : w.length = fs.length := hw w (by simp)
    have hn : (w :: ws').length = ws'.length + 1 := rfl
    rw [hn, allSeeds, countP_flatMap]
    have hinner : ∀ t, ((allSeeds d fs.length ws'.length).map (t :: ·)).countP
        (fun seeds => decide ((sampleMany fs seeds).map (List.map Prod.snd)
          = w :: ws')) =
        if decide ((sampleWorld fs t).map Prod.snd = w) then
          (allSeeds d fs.length ws'.length).countP (fun seeds =>
            decide ((sampleMany fs seeds).map (List.map Prod.snd) = ws'))
        else 0 := by
      intro t
      rw [List.countP_map]
      have hpt : ((fun seeds => decide ((sampleMany fs seeds).map
          (List.map Prod.snd) = w :: ws')) ∘ (t :: ·)) =
          fun seeds => decide ((sampleWorld fs t).map Prod.snd = w)
            && decide ((sampleMany fs seeds).map (List.map Prod.snd) = ws') := by
        funext seeds
        have hsm : (sampleMany fs (t :: seeds)).map (List.map Prod.snd) =
            (sampleWorld fs t).map Prod.snd ::
              (sampleMany fs seeds).map (List.map Prod.snd) := rfl
        simp only [Function.comp, hsm]
        exact decide_cons_eq _ _ _ _
      rw [hpt, countP_const_and]
    calc ((allTuples d fs.length).map fun t =>
          ((allSeeds d fs.length ws'.length).map (t :: ·)).countP
            (fun seeds => decide ((sampleMany fs seeds).map
              (List.map Prod.snd) = w :: ws'))).sum
        = ((allTuples d fs.length).map fun t =>
            if decide ((sampleWorld fs t).map Prod.snd = w) then
              (allSeeds d fs.length ws'.length).countP (fun seeds =>
                decide ((sampleMany fs seeds).map (List.map Prod.snd) = ws'))
            else 0).sum := by
          apply congrArg
          exact List.map_congr_left fun t ht => hinner t
      _ = ((allTuples d fs.length).countP fun t =>
            decide ((sampleWorld fs t).map Prod.snd = w)) *
            ((allSeeds d fs.length ws'.length).countP (fun seeds =>
              decide ((sampleMany fs seeds).map (List.map Prod.snd) = ws'))) :=
          sum_ite_count _ _ _
      _ = ((fs.zip w).map fun fw =>
            if fw.2 then fw.1.2 else d - fw.1.2).prod *
            (ws'.map fun u => ((fs.zip u).map fun fw =>
              if fw.2 then fw.1.2 else d - fw.1.2).prod).prod := by
          rw [count_tuples_world d fs w hwl hb, ih hw']
      _ = ((w :: ws').map fun u => ((fs.zip u).map fun fw =>
            if fw.2 then fw.1.2 else d - fw.1.2).prod).prod := by
          rw [List.map_cons, List.prod_cons]

theorem worldWeight_eq_div (d : ℕ) (fs : List (String × ℕ))
    (w : List Bool) (hlen : w.length = fs.length)
    (hb : ∀ f ∈ fs, f.2 ≤ d) :
    worldWeight fs d w = (worldNumer fs d w : ℚ) / (d : ℚ) ^ fs.length := by
  induction fs generalizing w with
  | nil =>
    cases w with
    | nil => simp [worldWeight, worldNumer]
    | cons b w' => simp at hlen
  | cons f fs' ih =>
    cases w with
    | nil => simp at hlen
    | cons b w' =>
      have hlen' : w'.length = fs'.length := by simpa using hlen
      have hb' : ∀ g ∈ fs', g.2 ≤ d := fun g hg => hb g (by simp [hg])
      have hfd : f.2 ≤ d := hb f (by simp)
      have hW : worldWeight (f :: fs') d (b :: w') =
          (if b then (f.2 : ℚ) / d else ((d : ℚ) - f.2) / d) *
            worldWeight fs' d w' := rfl
      have hN : worldNumer (f :: fs') d (b :: w') =
          (if b then f.2 else d - f.2) * worldNumer fs' d w' := rfl
      rw [hW, ih w' hlen' hb', hN]
      cases b
      · simp only [Bool.false_eq_true, if_false]
        rw [Nat.cast_mul, Nat.cast_sub hfd, div_mul_div_comm,
          List.length_cons, pow_succ']
      · simp only [if_true]
        rw [Nat.cast_mul, div_mul_div_comm, List.length_cons, pow_succ']

theorem prod_map_div_pow (l : List ℚ) (c : ℚ) :
    (l.map fun x => x / c).prod = l.prod / c ^ l.length := by
  induction l with
  | nil => simp
  | cons x xs ih =>
    rw [List.map_cons, List.prod_cons, List.prod_cons, ih, List.length_cons,
      div_mul_div_comm, pow_succ']

theorem worldWeight_eq_worldProb (d : ℕ) (hd : 0 < d)
    (fs : List (String × ℕ)) (hb : ∀ f ∈ fs, f.2 ≤ d) (w : List Bool) :
    worldWeight fs d w = worldProb (fs.map fun f => (f.1, (f.2 : ℚ) / d)) w := by
  have hd0 : (d : ℚ) ≠ 0 := by
    exact_mod_cast hd.ne'
  induction fs generalizing w with
  | nil => simp [worldWeight, worldProb]
  | cons f fs' ih =>
    cases w with
    | nil => simp [worldWeight, worldProb]
    | cons b w' =>
      have hb' : ∀ g ∈ fs', g.2 ≤ d := fun g hg => hb g (by simp [hg])
      have hW : worldWeight (f :: fs') d (b :: w') =
          (if b then (f.2 : ℚ) / d else ((d : ℚ) - f.2) / d) *
            worldWeight fs' d w' := rfl
      have hP : worldProb ((f :: fs').map fun g => (g.1, (g.2 : ℚ) / d))
          (b :: w') =
          (if b then (f.2 : ℚ) / d else 1 - (f.2 : ℚ) / d) *
            worldProb (fs'.map fun g => (g.1, (g.2 : ℚ) / d)) w' := rfl
      rw [hW, hP, ih hb' w']
      cases b
      · simp only [if_false, Bool.false_eq_true]
        congr 1
        field_simp
      · simp only [if_true]

/-- Claim C6 — the spec-modelled sampler: given one seed row per
requested sample, it yields exactly as many complete-world samples as
seed rows; each sample is a mapping assigning a boolean to every
probabilistic fact; and over the uniform space of all seed sequences,
the fraction of seeds producing any given sequence of `n` outcome
worlds equals the product of those worlds' probabilities — the draws
are mutually independent and each is distributed as the program's
possible-world distribution. -/
theorem sampling_yields_independent_complete_samples
    (fs : List (String × ℕ)) (d n : ℕ) (seeds : List (List ℕ))
    (ws : List (List Bool)) :
    (seeds.length = n → (sampleMany fs seeds).length = n) ∧
    ((∀ s ∈ seeds, fs.length ≤ s.length) → ∀ smp ∈ sampleMany fs seeds,
      smp.map Prod.fst = fs.map Prod.fst) ∧
    (0 < d → (∀ f ∈ fs, f.2 ≤ d) → ws.length = n →
      (∀ w ∈ ws, w.length = fs.length) →
      ((allSeeds d fs.length n).countP (fun sds =>
        decide ((sampleMany fs sds).map (List.map Prod.snd) = ws)) : ℚ) /
        (d : ℚ) ^ (fs.length * n) = (ws.map (worldWeight fs d)).prod) ∧
    (0 < d → (∀ f ∈ fs, f.2 ≤ d) → ∀ w, worldWeight fs d w =
      worldProb (fs.map fun f => (f.1, (f.2 : ℚ) / d)) w) := by
  refine ⟨?_, ?_, ?_, ?_⟩
  · intro h
    simp [sampleMany, h]
  · intro hlen smp hsmp
    rcases List.mem_map.mp hsmp with ⟨s, hs, rfl⟩
    have hkeys : (sampleWorld fs s).map Prod.fst =
        ((fs.zip s).map Prod.fst).map Prod.fst := by
      simp [sampleWorld, List.map_map, Function.comp]
    rw [hkeys, List.map_fst_zip fs s (hlen s hs)]
  · intro hd hb hn hw
    have hd0 : (d : ℚ) ≠ 0 := by
      exact_mod_cast hd.ne'
    subst hn
    rw [count_seeds_worlds d fs ws hw hb, pow_mul]
    have hnmap : (ws.map fun w => ((fs.zip w).map fun fw =>
        if fw.2 then fw.1.2 else d - fw.1.2).prod) = ws.map (worldNumer fs d) :=
      rfl
    rw [hnmap]
    have hmap : ws.map (worldWeight fs d) = ws.map fun w =>
        (worldNumer fs d w : ℚ) / (d : ℚ) ^ fs.length :=
      List.map_congr_left fun w hw2 =>
        worldWeight_eq_div d fs w (hw w hw2) hb
    rw [hmap]
    have hcomp : (ws.map fun w =>
        (worldNumer fs d w : ℚ) / (d : ℚ) ^ fs.length)
        = (ws.map fun w => (worldNumer fs d w : ℚ)).map
          fun x => x / (d : ℚ) ^ fs.length := by
      rw [List.map_map]
      rfl
    rw [hcomp, prod_map_div_pow _ _]
    rw [List.length_map]
    congr 1
    rw [Nat.cast_list_prod, List.map_map]
    rfl
  · intro hd hb w
    exact worldWeight_eq_worldProb d hd fs hb w

/-- Witness for claim C6: one fact of probability `1/2` (threshold `1`
out of `2`), one requested sample, one seed row. -/
theorem sampling_yields_independent_complete_samples_witness :
    (sampleMany [("a", 1)] [[0]]).length = 1 ∧
    (((allSeeds 2 [("a", 1)].length 1).countP (fun sds =>
      decide ((sampleMany [("a", 1)] sds).map (List.map Prod.snd)
        = [[true]])) : ℚ) / (2 : ℚ) ^ ([("a", 1)].length * 1) =
      ([[true]].map (worldWeight [("a", 1)] 2)).prod) :=
  ⟨(sampling_yields_independent_complete_samples [("a", 1)] 2 1 [[0]]
      [[true]]).1 (by decide),
   (sampling_yields_independent_complete_samples [("a", 1)] 2 1 [[0]]
      [[true]]).2.2.1 (by decide) (by decide) (by decide) (by decide)⟩

end MDProg
